import Mathlib

/-!
Verification of the combodate core functions.

The program's pure core (digit grouping, padding, table rendering, calendar
arithmetic, proportion-of-period formatting) is embedded shallowly: Rust
strings become `List Char`, the `u32`/`u128` arithmetic becomes `Nat`
arithmetic with an explicit wrap where the source uses `u32` addition, and
functions that can panic return `Option`.
-/

set_option maxHeartbeats 1000000

namespace Combodate

/-- Embeds `pad` from `src/lib.rs`: if `x` is shorter than `k`, prepend
(when `left`) or append copies of `pad_char` until the length is `k`;
otherwise return `x` unchanged. -/
def pad (x : List Char) (k : Nat) (left : Bool) (pad_char : Char) : List Char :=
  if x.length < k then
    if left then List.replicate (k - x.length) pad_char ++ x
    else x ++ List.replicate (k - x.length) pad_char
  else x

/-- Embeds `make_table` from `src/lib.rs`: a first pass over the rows computes
the running maxima of label and value lengths, a second pass emits one line
per row, the label padded on the right and the value padded on the left. -/
def make_table (rows : List (List Char × List Char)) : List Char :=
  let max_len : Nat × Nat :=
    rows.foldl
      (fun m k =>
        (if k.1.length > m.1 then k.1.length else m.1,
         if k.2.length > m.2 then k.2.length else m.2))
      (0, 0)
  rows.foldl
    (fun out k =>
      out ++ (pad k.1 max_len.1 false ' ' ++ ([' '] ++ (pad k.2 max_len.2 true ' ' ++ ['\n']))))
    []

/-- Embeds `reverse_str` from `src/lib.rs`: the loop pops characters off the
end of the input and pushes them onto the output, i.e. it reverses. -/
def reverse_str (x : List Char) : List Char :=
  x.reverse

/-- The body of `separate` after the division and remainder have been taken:
the short leading group of `rem` characters (followed by one separator) when
`rem > 0`, then the `parts` full groups of `places` characters, with a
separator after every group except the last. -/
def separateCore (x : List Char) (places : Nat) (sep : Char) : List Char :=
  let ell := x.length
  let rem := ell % places
  let parts := ell / places
  (List.range parts).foldl
    (fun out k =>
      (out ++ (x.drop (rem + k * places)).take places) ++
        (if k < parts - 1 then [sep] else []))
    ((if 0 < rem then x.take rem else []) ++ (if 0 < rem then [sep] else []))

/-- Embeds `separate` from `src/lib.rs`. The source computes
`x.len() % places` and `x.len() / places`, which panics when `places = 0`;
that panic is modelled as `none`. -/
def separate (x : List Char) (places : Nat) (sep : Char) : Option (List Char) :=
  if places = 0 then none else some (separateCore x places sep)

/-- Embeds `separate_from_left` from `src/lib.rs`: reverse, group from the
right, reverse again. -/
def separate_from_left (x : List Char) (places : Nat) (sep : Char) : Option (List Char) :=
  (separate (reverse_str x) places sep).map reverse_str

/-- Embeds `is_leap_year` from `src/lib.rs`; Rust's `%` on `i32` is the
truncating remainder, `Int.tmod`. -/
def is_leap_year (year : Int) : Bool :=
  (Int.tmod year 4 == 0) && (Int.tmod year 100 != 0 || Int.tmod year 400 == 0)

/-- Embeds `month_length` from `src/lib.rs`. The source panics when
`month > 12` (modelled as `none`); otherwise it tests
`(month % 2 == 1 && month <= 7) || (month % 2 == 0 && month > 7)` for the
31-day months, then `month == 2` for February, and falls through to 30. -/
def month_length (year : Int) (month : Nat) : Option Nat :=
  if 12 < month then none
  else if (month % 2 = 1 ∧ month ≤ 7) ∨ (month % 2 = 0 ∧ 7 < month) then some 31
  else if month = 2 then some (if is_leap_year year then 29 else 28)
  else some 30

/-- Embeds `year_length` from `src/lib.rs`. -/
def year_length (year : Int) : Nat :=
  if is_leap_year year then 366 else 365

/-- Decimal digit characters of `n`, most significant first; embeds what
Rust's `format!` renders for an unsigned integer. -/
def natDigits (n : Nat) : List Char :=
  if _h : n < 10 then [Nat.digitChar n]
  else natDigits (n / 10) ++ [Nat.digitChar (n % 10)]
termination_by n
decreasing_by exact Nat.div_lt_self (by omega) (by omega)

/-- Embeds Rust's `format!` with the width spec `0` `5` (as used on the scaled
proportions): the decimal digits, zero-filled on the left to width 5. -/
def format05 (p : Nat) : List Char :=
  List.replicate (5 - (natDigits p).length) '0' ++ natDigits p

/-- Wrap-around of Rust `u32` addition. -/
def u32 (n : Nat) : Nat :=
  n % 4294967296

/-- Embeds `proportion_day` from `src/lib.rs`; the argument `s` is the value
of `num_seconds_from_midnight()` (a `u32`). -/
def proportion_day (s : Nat) : Option (List Char) :=
  (separate_from_left (format05 (s * 100000 / 86400)) 3 ' ').map
    (fun g => '0' :: '.' :: g)

/-- Embeds `proportion_week` from `src/lib.rs`; `s` is the value of
`num_seconds_from_midnight()` and `d` the value of `num_days_from_monday()`,
added in `u32` arithmetic as in the source. -/
def proportion_week (s d : Nat) : Option (List Char) :=
  (separate_from_left (format05 (u32 (s + d * 86400) * 100000 / (7 * 86400))) 3 ' ').map
    (fun g => '0' :: '.' :: g)

/-- Embeds `proportion_month` from `src/lib.rs`; `s` is the value of
`num_seconds_from_midnight()` and `day0` the value of `day0()` (day of month,
zero-based). The call to `month_length` can panic, hence the `bind`. -/
def proportion_month (s day0 : Nat) (year : Int) (month : Nat) : Option (List Char) :=
  (month_length year month).bind (fun ml =>
    (separate_from_left (format05 (u32 (s + day0 * 86400) * 100000 / (ml * 86400))) 3 ' ').map
      (fun g => '0' :: '.' :: g))

/-- Embeds `proportion_year` from `src/lib.rs`; `s` is the value of
`num_seconds_from_midnight()` and `ordinal0` the value of `ordinal0()`
(day of year, zero-based). -/
def proportion_year (s ordinal0 : Nat) (year : Int) : Option (List Char) :=
  (separate_from_left (format05 (u32 (s + ordinal0 * 86400) * 100000 / (year_length year * 86400))) 3 ' ').map
    (fun g => '0' :: '.' :: g)

/-- Month lengths as the spec states them: 31 days for months
1, 3, 5, 7, 8, 10, 12; 30 days for 4, 6, 9, 11; 28 or 29 for February
according to the leap-year rule. -/
def gregorian_month_length (leap : Bool) (m : Nat) : Nat :=
  if m = 2 then (if leap then 29 else 28)
  else if m = 4 ∨ m = 6 ∨ m = 9 ∨ m = 11 then 30
  else 31

/-- Numeric value of a decimal digit character. -/
def charVal (c : Char) : Nat :=
  c.toNat - 48

/-- Numeric value denoted by a string of decimal digit characters. -/
def decodeDigits (l : List Char) : Nat :=
  l.foldl (fun acc c => acc * 10 + charVal c) 0

/-- The maximum label length across all rows, as the spec states it. -/
def maxLabelLen (rows : List (List Char × List Char)) : Nat :=
  (rows.map (fun k => k.1.length)).foldr max 0

/-- The maximum value length across all rows, as the spec states it. -/
def maxValueLen (rows : List (List Char × List Char)) : Nat :=
  (rows.map (fun k => k.2.length)).foldr max 0

/-- The output shape the spec requires of every proportion function:
`"0."`, three digits, a space, two digits, denoting a fraction in `[0, 1)`. -/
def proportionShape (o : Option (List Char)) : Prop :=
  ∃ a b c d e : Char, a.isDigit ∧ b.isDigit ∧ c.isDigit ∧ d.isDigit ∧ e.isDigit ∧
    o = some ['0', '.', a, b, c, ' ', d, e] ∧
    ((decodeDigits [a, b, c, d, e] : ℚ) / 100000) ∈ Set.Ico (0 : ℚ) 1

/-- Folding an append-accumulating body (an append of two pieces per step, as
in the grouping loop) from `acc` concatenates `acc` with the per-index
pieces in order. -/
theorem foldl_append_pair (g1 g2 : Nat → List Char) (l : List Nat) (acc : List Char) :
    l.foldl (fun out k => (out ++ g1 k) ++ g2 k) acc
      = acc ++ (l.map (fun k => g1 k ++ g2 k)).flatten := by
  induction l generalizing acc with
  | nil => simp
  | cons a t ih =>
    rw [List.foldl_cons, ih]
    simp [List.append_assoc]

/-- Closed form of `separateCore`: the short leading group (with one
separator) followed by the concatenation of the full groups, each full group
but the last followed by a separator. -/
theorem separateCore_eq (x : List Char) (places : Nat) (sep : Char) :
    separateCore x places sep =
      (if 0 < x.length % places then x.take (x.length % places) ++ [sep] else []) ++
        ((List.range (x.length / places)).map
          (fun k => (x.drop (x.length % places + k * places)).take places ++
            (if k < x.length / places - 1 then [sep] else []))).flatten := by
  show (List.range (x.length / places)).foldl
      (fun out k =>
        (out ++ (x.drop (x.length % places + k * places)).take places) ++
          (if k < x.length / places - 1 then [sep] else []))
      ((if 0 < x.length % places then x.take (x.length % places) else []) ++
        (if 0 < x.length % places then [sep] else [])) = _
  rw [foldl_append_pair]
  congr 1
  split <;> simp

/-- The full groups, concatenated in order, are exactly the characters of `x`
from position `rem` on, cut off after `parts * places` characters. -/
theorem chunks_flatten (x : List Char) (places rem : Nat) (parts : Nat) :
    ((List.range parts).map (fun k => (x.drop (rem + k * places)).take places)).flatten
      = (x.drop rem).take (parts * places) := by
  induction parts with
  | zero => simp
  | succ p ih =>
    rw [List.range_succ, List.map_append, List.flatten_append, ih]
    simp only [List.map_cons, List.map_nil, List.flatten_cons, List.flatten_nil,
      List.append_nil]
    rw [Nat.succ_mul, List.take_add]
    congr 1
    rw [List.drop_drop]

/-- Filtering out a character that does not occur in `x` leaves any sublist
of `x` unchanged. -/
theorem filter_sublist_eq (x l : List Char) (sep : Char) (hx : sep ∉ x)
    (hl : l.Sublist x) :
    l.filter (fun c => c != sep) = l := by
  rw [List.filter_eq_self]
  intro a ha
  have hax : a ∈ x := hl.subset ha
  have hne : a ≠ sep := fun h => hx (h ▸ hax)
  simpa using hne

/-- Stripping the separator from `separateCore x places sep` recovers `x`,
provided the separator does not occur in `x`. -/
theorem filter_separateCore (x : List Char) (places : Nat) (sep : Char)
    (hx : sep ∉ x) (_hp : 1 ≤ places) :
    (separateCore x places sep).filter (fun c => c != sep) = x := by
  rw [separateCore_eq, List.filter_append, List.filter_flatten, List.map_map]
  have hg : (fun l => List.filter (fun c => c != sep) l) ∘
        (fun k => (x.drop (x.length % places + k * places)).take places ++
          (if k < x.length / places - 1 then [sep] else []))
      = fun k => (x.drop (x.length % places + k * places)).take places := by
    funext k
    simp only [Function.comp]
    rw [List.filter_append]
    rw [filter_sublist_eq x _ sep hx
      ((List.take_sublist _ _).trans (List.drop_sublist _ _))]
    have hif : (if k < x.length / places - 1 then [sep] else ([] : List Char)).filter
        (fun c => c != sep) = [] := by
      split <;> simp
    rw [hif, List.append_nil]
  rw [hg, chunks_flatten]
  have hdl : (x.drop (x.length % places)).length ≤ x.length / places * places := by
    rw [List.length_drop]
    have hmd := Nat.mod_add_div x.length places
    rw [Nat.mul_comm (x.length / places) places]
    omega
  rw [List.take_of_length_le hdl]
  by_cases h : 0 < x.length % places
  · rw [if_pos h, List.filter_append]
    rw [filter_sublist_eq x _ sep hx (List.take_sublist _ _)]
    have : ([sep] : List Char).filter (fun c => c != sep) = [] := by simp
    rw [this, List.append_nil, List.take_append_drop]
  · rw [if_neg h]
    have : x.length % places = 0 := by omega
    rw [this, List.drop_zero, List.filter_nil, List.nil_append]

/-- The head of a nonempty list avoiding `sep` is not `sep`. -/
theorem head?_ne_of_not_mem (x : List Char) (sep : Char) (hx : x ≠ [])
    (hsep : sep ∉ x) : x.head? ≠ some sep := by
  cases x with
  | nil => exact absurd rfl hx
  | cons a t =>
    intro h
    simp only [List.head?_cons, Option.some.injEq] at h
    exact hsep (h ▸ List.mem_cons_self a t)

/-- The last element of a nonempty list avoiding `sep` is not `sep`. -/
theorem getLast?_ne_of_not_mem (x : List Char) (sep : Char) (hx : x ≠ [])
    (hsep : sep ∉ x) : x.getLast? ≠ some sep := by
  rw [← List.head?_reverse]
  exact head?_ne_of_not_mem x.reverse sep (by simpa using hx) (by simpa using hsep)

/-- When `x` holds at least one full group, `separateCore` starts with the
first character of `x`. -/
theorem head?_separateCore (x : List Char) (places : Nat) (sep : Char)
    (hx : x ≠ []) (hp : 1 ≤ places) (hlen : places ≤ x.length) :
    (separateCore x places sep).head? = x.head? := by
  obtain ⟨a, t, rfl⟩ : ∃ a t, x = a :: t := by
    cases x with
    | nil => exact absurd rfl hx
    | cons a t => exact ⟨a, t, rfl⟩
  rw [separateCore_eq]
  by_cases h : 0 < (a :: t).length % places
  · rw [if_pos h]
    obtain ⟨r, hr⟩ := Nat.exists_eq_succ_of_ne_zero (Nat.pos_iff_ne_zero.mp h)
    rw [Nat.succ_eq_add_one] at hr
    rw [hr, List.take_succ_cons]
    rfl
  · rw [if_neg h]
    have hparts : 1 ≤ (a :: t).length / places := by
      rw [Nat.le_div_iff_mul_le (by omega)]
      omega
    obtain ⟨q, hq⟩ := Nat.exists_eq_succ_of_ne_zero (by omega : (a :: t).length / places ≠ 0)
    rw [Nat.succ_eq_add_one] at hq
    rw [hq, List.range_succ_eq_map, List.map_cons, List.flatten_cons]
    have hrem : (a :: t).length % places = 0 := by omega
    rw [hrem]
    simp only [Nat.zero_mul, Nat.add_zero, List.drop_zero, List.nil_append]
    obtain ⟨p, hp2⟩ := Nat.exists_eq_succ_of_ne_zero (by omega : places ≠ 0)
    rw [Nat.succ_eq_add_one] at hp2
    rw [hp2, List.take_succ_cons]
    rfl

/-- When `x` holds at least one full group, `separateCore` ends with the
last character of `x`. -/
theorem getLast?_separateCore (x : List Char) (places : Nat) (sep : Char)
    (hp : 1 ≤ places) (hlen : places ≤ x.length) :
    (separateCore x places sep).getLast? = x.getLast? := by
  rw [separateCore_eq]
  have hparts : 1 ≤ x.length / places := by
    rw [Nat.le_div_iff_mul_le (by omega)]
    omega
  obtain ⟨q, hq⟩ := Nat.exists_eq_succ_of_ne_zero (by omega : x.length / places ≠ 0)
  rw [Nat.succ_eq_add_one] at hq
  have key : x.length % places + q * places + places = x.length := by
    have hmd := Nat.mod_add_div x.length places
    rw [hq, Nat.mul_succ, Nat.mul_comm places q] at hmd
    linarith
  rw [hq, List.range_succ, List.map_append, List.flatten_append]
  simp only [List.map_cons, List.map_nil, List.flatten_cons, List.flatten_nil,
    List.append_nil, Nat.add_sub_cancel, lt_self_iff_false, if_false]
  have hdl : (x.drop (x.length % places + q * places)).length = places := by
    rw [List.length_drop]
    omega
  rw [@List.take_of_length_le Char places (x.drop (x.length % places + q * places))
    (le_of_eq hdl)]
  have hne : x.drop (x.length % places + q * places) ≠ [] := by
    intro hcon
    rw [hcon] at hdl
    simp at hdl
    omega
  obtain ⟨a, ha⟩ : ∃ a, (x.drop (x.length % places + q * places)).getLast? = some a := by
    rw [← Option.isSome_iff_exists]
    exact List.getLast?_isSome.mpr hne
  rw [List.getLast?_append, List.getLast?_append, ha]
  have hxl : x.getLast? = some a := by
    conv_lhs => rw [← List.take_append_drop (x.length % places + q * places) x]
    rw [List.getLast?_append, ha]
    rfl
  rw [hxl]
  rfl

/-- Counterexample for C1: for a string shorter than the group size the
remainder branch pushes the whole string and then a separator that no group
follows, so the result ends with the separator (and correspondingly
`separate_from_left` starts with it); and a string whose own boundary
characters equal the separator starts with it trivially. -/
theorem separate_boundary_counterexample :
    (∃ y, separate ['1', '2'] 3 ' ' = some y ∧ y.getLast? = some ' ') ∧
      (∃ z, separate_from_left ['1', '2'] 3 ' ' = some z ∧ z.head? = some ' ') ∧
      (∃ y, separate [' '] 1 ' ' = some y ∧ y.head? = some ' ') := by
  exact ⟨⟨['1', '2', ' '], rfl, rfl⟩, ⟨[' ', '1', '2'], rfl, rfl⟩, ⟨[' '], rfl, rfl⟩⟩

/-- Claim C1 (amended): for a nonempty string that does not contain the
separator and is at least one group long, both grouping directions produce a
string that neither starts nor ends with the separator character. -/
theorem separate_no_boundary_sep (x : List Char) (n : Nat) (sep : Char)
    (hx : x ≠ []) (hsep : sep ∉ x) (hn : 1 ≤ n) (hlen : n ≤ x.length) :
    ∃ y z, separate x n sep = some y ∧ separate_from_left x n sep = some z ∧
      y.head? ≠ some sep ∧ y.getLast? ≠ some sep ∧
      z.head? ≠ some sep ∧ z.getLast? ≠ some sep := by
  refine ⟨separateCore x n sep, reverse_str (separateCore (reverse_str x) n sep),
    ?_, ?_, ?_, ?_, ?_, ?_⟩
  · unfold separate
    rw [if_neg (by omega)]
  · unfold separate_from_left separate
    rw [if_neg (by omega)]
    rfl
  · rw [head?_separateCore x n sep hx hn hlen]
    exact head?_ne_of_not_mem x sep hx hsep
  · rw [getLast?_separateCore x n sep hn hlen]
    exact getLast?_ne_of_not_mem x sep hx hsep
  · unfold reverse_str
    rw [List.head?_reverse,
      getLast?_separateCore x.reverse n sep hn (by rw [List.length_reverse]; exact hlen),
      List.getLast?_reverse]
    exact head?_ne_of_not_mem x sep hx hsep
  · unfold reverse_str
    rw [List.getLast?_reverse,
      head?_separateCore x.reverse n sep (by simpa using hx) hn
        (by rw [List.length_reverse]; exact hlen),
      List.head?_reverse]
    exact getLast?_ne_of_not_mem x sep hx hsep

/-- Witness for C1 (amended) at a concrete input. -/
theorem separate_no_boundary_sep_witness :
    ∃ y z, separate ['1', '2', '3', '4'] 3 ' ' = some y ∧
      separate_from_left ['1', '2', '3', '4'] 3 ' ' = some z ∧
      y.head? ≠ some ' ' ∧ y.getLast? ≠ some ' ' ∧
      z.head? ≠ some ' ' ∧ z.getLast? ≠ some ' ' :=
  separate_no_boundary_sep ['1', '2', '3', '4'] 3 ' ' (by decide) (by decide)
    (by norm_num) (by decide)

/-- Counterexample for C9: when the separator is itself one of the digits,
stripping it also removes original characters, so the round trip fails. -/
theorem strip_separators_counterexample :
    (separate ['1', '2', '3', '4'] 3 '1').map (List.filter (fun c => c != '1'))
        = some ['2', '3', '4'] ∧
      (separate ['1', '2', '3', '4'] 3 '1').map (List.filter (fun c => c != '1'))
        ≠ some ['1', '2', '3', '4'] :=
  ⟨rfl, by decide⟩

/-- Claim C9 (amended): for a nonempty digit string, a group size of at least
1, and a separator that is not itself a digit, stripping every separator
character from the output of `separate` — and likewise of
`separate_from_left` — recovers the original string. -/
theorem strip_separators_round_trip (s : List Char) (n : Nat) (sep : Char)
    (_hs : s ≠ []) (hdig : ∀ c ∈ s, c.isDigit) (hsep : ¬ sep.isDigit = true)
    (hn : 1 ≤ n) :
    (separate s n sep).map (List.filter (fun c => c != sep)) = some s ∧
      (separate_from_left s n sep).map (List.filter (fun c => c != sep)) = some s := by
  have hmem : sep ∉ s := fun h => hsep (hdig sep h)
  have h1 : separate s n sep = some (separateCore s n sep) := by
    unfold separate
    rw [if_neg (by omega)]
  have h2 : separate (reverse_str s) n sep = some (separateCore s.reverse n sep) := by
    unfold separate reverse_str
    rw [if_neg (by omega)]
  constructor
  · rw [h1, Option.map_some']
    rw [filter_separateCore s n sep hmem hn]
  · unfold separate_from_left
    rw [h2, Option.map_some', Option.map_some']
    unfold reverse_str
    rw [List.filter_reverse, filter_separateCore s.reverse n sep (by simpa using hmem) hn]
    simp

/-- Witness for C9 at a concrete input. -/
theorem strip_separators_round_trip_witness :
    (separate ['1', '2', '3', '4', '5'] 3 ' ').map (List.filter (fun c => c != ' '))
        = some ['1', '2', '3', '4', '5'] ∧
      (separate_from_left ['1', '2', '3', '4', '5'] 3 ' ').map
          (List.filter (fun c => c != ' '))
        = some ['1', '2', '3', '4', '5'] :=
  strip_separators_round_trip ['1', '2', '3', '4', '5'] 3 ' ' (by decide) (by decide)
    (by decide) (by norm_num)

/-- Claim C8: `pad` returns a string of length `max (len x) k`; it never
truncates, and when `x` is already at least `k` long it returns `x`
unchanged. -/
theorem pad_length_max (x : List Char) (k : Nat) (left : Bool) (c : Char) :
    (pad x k left c).length = max x.length k ∧
      x.length ≤ (pad x k left c).length ∧
      (k ≤ x.length → pad x k left c = x) := by
  unfold pad
  split
  · split <;> simp <;> omega
  · simp
    omega

/-- Witness for C8 at a concrete input. -/
theorem pad_length_max_witness :
    (pad ['h', 'h', 'h', 'h'] 3 true 'o').length = max (['h', 'h', 'h', 'h'] : List Char).length 3 ∧
      (['h', 'h', 'h', 'h'] : List Char).length ≤ (pad ['h', 'h', 'h', 'h'] 3 true 'o').length ∧
      (3 ≤ (['h', 'h', 'h', 'h'] : List Char).length →
        pad ['h', 'h', 'h', 'h'] 3 true 'o' = ['h', 'h', 'h', 'h']) :=
  pad_length_max ['h', 'h', 'h', 'h'] 3 true 'o'

/-- Claim C10: `separate` with group size 0 hits a division and remainder by
zero (a panic, modelled as `none`), and likewise `separate_from_left`; for
every group size at least 1 the function returns normally. -/
theorem separate_zero_group_size (x : List Char) (sep : Char) :
    separate x 0 sep = none ∧ separate_from_left x 0 sep = none ∧
      ∀ n : Nat, 1 ≤ n → ∃ y, separate x n sep = some y := by
  refine ⟨rfl, rfl, fun n hn => ⟨separateCore x n sep, ?_⟩⟩
  unfold separate
  rw [if_neg (by omega)]

/-- Witness for C10 at a concrete input. -/
theorem separate_zero_group_size_witness :
    ∃ y, separate ['a', 'b', 'c'] 2 ' ' = some y :=
  (separate_zero_group_size ['a', 'b', 'c'] ' ').2.2 2 (by norm_num)

/-- Counterexample for C2: month 0 is outside 1–12, yet `month_length` does
not fail there; it falls through to the 30-day branch. -/
theorem month_length_zero_counterexample :
    month_length 2000 0 = some 30 := by
  decide

/-- Claim C2 (amended): `month_length` fails (panics, modelled as `none`)
exactly for months greater than 12; for every month at most 12 — including
the invalid month 0, which yields 30 — it returns normally. -/
theorem month_length_domain (year : Int) (month : Nat) :
    (12 < month → month_length year month = none) ∧
      (month ≤ 12 → ∃ L, month_length year month = some L) := by
  constructor
  · intro h
    unfold month_length
    rw [if_pos h]
  · intro h
    unfold month_length
    rw [if_neg (by omega)]
    split
    · exact ⟨31, rfl⟩
    · split
      · exact ⟨if is_leap_year year then 29 else 28, rfl⟩
      · exact ⟨30, rfl⟩

/-- Witness for C2 (amended) at concrete inputs. -/
theorem month_length_domain_witness :
    month_length 2000 13 = none :=
  (month_length_domain 2000 13).1 (by norm_num)

/-- Claim C6: on months 1–12, `month_length` agrees with the Gregorian month
lengths (31 for 1, 3, 5, 7, 8, 10, 12; 30 for 4, 6, 9, 11; February by the
leap rule), and the twelve month lengths sum to `year_length`. -/
theorem month_lengths_sum_to_year_length (year : Int) :
    (∀ m : Nat, 1 ≤ m → m ≤ 12 →
        month_length year m = some (gregorian_month_length (is_leap_year year) m)) ∧
      (List.range 12).foldl (fun acc m => acc + (month_length year (m + 1)).getD 0) 0
        = year_length year := by
  constructor
  · intro m h1 h2
    interval_cases m <;> rfl
  · have key : (List.range 12).foldl (fun acc m => acc + (month_length year (m + 1)).getD 0) 0
        = 31 + (if is_leap_year year then 29 else 28) + 31 + 30 + 31 + 30 + 31 + 31 + 30 + 31
            + 30 + 31 := rfl
    rw [key, year_length]
    cases is_leap_year year <;> norm_num

/-- Witness for C6 at a concrete input. -/
theorem month_lengths_sum_to_year_length_witness :
    month_length 2024 2 = some (gregorian_month_length (is_leap_year 2024) 2) :=
  (month_lengths_sum_to_year_length 2024).1 2 (by norm_num) (by norm_num)

/-- The running-maximum update of `make_table`, written with `max`. -/
theorem if_gt_eq_max (m x : Nat) : (if x > m then x else m) = max m x := by
  rcases le_or_lt x m with h | h
  · rw [if_neg (not_lt.mpr h), max_eq_left h]
  · rw [if_pos h, max_eq_right h.le]

/-- The first pass of `make_table` computes the componentwise maxima of the
label lengths and the value lengths. -/
theorem foldl_max_pair (rows : List (List Char × List Char)) (a b : Nat) :
    rows.foldl
        (fun m k =>
          (if k.1.length > m.1 then k.1.length else m.1,
           if k.2.length > m.2 then k.2.length else m.2))
        (a, b)
      = (max a (maxLabelLen rows), max b (maxValueLen rows)) := by
  induction rows generalizing a b with
  | nil => simp [maxLabelLen, maxValueLen]
  | cons r t ih =>
    rw [List.foldl_cons, ih]
    simp only [maxLabelLen, maxValueLen, List.map_cons, List.foldr_cons, if_gt_eq_max]
    rw [Nat.max_assoc, Nat.max_assoc]

/-- Folding an append-accumulating row renderer from `acc` concatenates
`acc` with the rendered rows in order. -/
theorem foldl_append_rows (f : (List Char × List Char) → List Char)
    (l : List (List Char × List Char)) (acc : List Char) :
    l.foldl (fun out k => out ++ f k) acc = acc ++ (l.map f).flatten := by
  induction l generalizing acc with
  | nil => simp
  | cons a t ih =>
    rw [List.foldl_cons, ih]
    simp [List.append_assoc]

/-- Claim C7: `make_table` right-pads each label to the maximum label length,
left-pads each value to the maximum value length, and emits one line per row
(`padded label`, one space, `padded value`, newline) in input order with no
other separators. -/
theorem make_table_spec (rows : List (List Char × List Char)) :
    make_table rows
      = (rows.map (fun k =>
          pad k.1 (maxLabelLen rows) false ' ' ++ [' '] ++
            pad k.2 (maxValueLen rows) true ' ' ++ ['\n'])).flatten := by
  simp only [make_table]
  rw [foldl_max_pair]
  simp only [Nat.zero_max]
  rw [foldl_append_rows (fun k =>
    pad k.1 (maxLabelLen rows) false ' ' ++ ([' '] ++
      (pad k.2 (maxValueLen rows) true ' ' ++ ['\n']))) rows []]
  simp [List.append_assoc]

/-- `Nat.digitChar` of a value below 10 is a digit character. -/
theorem digitChar_isDigit (n : Nat) (h : n < 10) : (Nat.digitChar n).isDigit := by
  interval_cases n <;> decide

/-- `charVal` inverts `Nat.digitChar` on values below 10. -/
theorem charVal_digitChar (n : Nat) (h : n < 10) : charVal (Nat.digitChar n) = n := by
  interval_cases n <;> decide

/-- Every character produced by `natDigits` is a digit. -/
theorem natDigits_digits (n : Nat) : ∀ c ∈ natDigits n, c.isDigit := by
  induction n using Nat.strong_induction_on with
  | _ n ih =>
    intro c hc
    rw [natDigits] at hc
    split at hc
    · rw [List.mem_singleton] at hc
      exact hc ▸ digitChar_isDigit n (by omega)
    · rw [List.mem_append, List.mem_singleton] at hc
      rcases hc with hc | hc
      · exact ih (n / 10) (Nat.div_lt_self (by omega) (by omega)) c hc
      · exact hc ▸ digitChar_isDigit (n % 10) (Nat.mod_lt n (by omega))

/-- Appending one digit multiplies the decoded value by 10 and adds the
digit. -/
theorem decodeDigits_append_singleton (l : List Char) (c : Char) :
    decodeDigits (l ++ [c]) = decodeDigits l * 10 + charVal c := by
  simp [decodeDigits, List.foldl_append]

/-- `decodeDigits` inverts `natDigits`. -/
theorem decodeDigits_natDigits (n : Nat) : decodeDigits (natDigits n) = n := by
  induction n using Nat.strong_induction_on with
  | _ n ih =>
    rw [natDigits]
    split
    · have h1 : charVal (Nat.digitChar n) = n := charVal_digitChar n (by omega)
      simp [decodeDigits, h1]
    · rw [decodeDigits_append_singleton,
        ih (n / 10) (Nat.div_lt_self (by omega) (by omega)),
        charVal_digitChar (n % 10) (Nat.mod_lt n (by omega))]
      omega

/-- A leading zero character does not change the decoded value. -/
theorem decodeDigits_cons_zero (l : List Char) :
    decodeDigits ('0' :: l) = decodeDigits l := by
  unfold decodeDigits
  rw [List.foldl_cons]
  have h0 : 0 * 10 + charVal '0' = 0 := by decide
  rw [h0]

/-- Leading zero padding does not change the decoded value. -/
theorem decodeDigits_replicate_zero (k : Nat) (l : List Char) :
    decodeDigits (List.replicate k '0' ++ l) = decodeDigits l := by
  induction k with
  | zero => rw [List.replicate_zero, List.nil_append]
  | succ k ih =>
    rw [List.replicate_succ, List.cons_append, decodeDigits_cons_zero, ih]

/-- A value below `10 ^ k` has at most `k` decimal digits (for `k ≥ 1`). -/
theorem natDigits_length_le (k : Nat) : ∀ n : Nat, n < 10 ^ k → 1 ≤ k →
    (natDigits n).length ≤ k := by
  induction k with
  | zero => intro n h h1; omega
  | succ k ih =>
    intro n h _
    rw [natDigits]
    split
    · simp
    · rename_i hge
      rw [List.length_append, List.length_singleton]
      have h10 : n / 10 < 10 ^ k := by
        rw [Nat.div_lt_iff_lt_mul (by norm_num)]
        calc n < 10 ^ (k + 1) := h
          _ = 10 ^ k * 10 := by ring
      have hk1 : 1 ≤ k := by
        by_contra hc
        have hk0 : k = 0 := by omega
        subst hk0
        rw [pow_one] at h
        exact hge h
      have := ih (n / 10) h10 hk1
      omega

/-- Below 100000 the zero-filled rendering has exactly 5 characters. -/
theorem format05_length (p : Nat) (hp : p < 100000) : (format05 p).length = 5 := by
  rw [format05, List.length_append, List.length_replicate]
  have h5 : (natDigits p).length ≤ 5 :=
    natDigits_length_le 5 p (by norm_num; omega) (by norm_num)
  omega

/-- Every character of the zero-filled rendering is a digit. -/
theorem format05_digits (p : Nat) : ∀ c ∈ format05 p, c.isDigit := by
  intro c hc
  rw [format05, List.mem_append] at hc
  rcases hc with hc | hc
  · rw [List.eq_of_mem_replicate hc]
    decide
  · exact natDigits_digits p c hc

/-- The zero-filled rendering decodes back to the rendered value. -/
theorem decodeDigits_format05 (p : Nat) : decodeDigits (format05 p) = p := by
  rw [format05, decodeDigits_replicate_zero, decodeDigits_natDigits]

/-- A list of length 5 is a five-element literal. -/
theorem exists_five (l : List Char) (h : l.length = 5) :
    ∃ a b c d e : Char, l = [a, b, c, d, e] := by
  rcases l with _ | ⟨a, _ | ⟨b, _ | ⟨c, _ | ⟨d, _ | ⟨e, _ | ⟨f, t⟩⟩⟩⟩⟩⟩
  all_goals first
    | exact ⟨a, b, c, d, e, rfl⟩
    | (simp only [List.length_cons, List.length_nil] at h; omega)

/-- Grouping a five-character string in threes from the left inserts a single
separator after the third character. -/
theorem separate_from_left_five (a b c d e : Char) :
    separate_from_left [a, b, c, d, e] 3 ' ' = some [a, b, c, ' ', d, e] := by
  simp [separate_from_left, separate, reverse_str, separateCore, List.range_succ]

/-- The grouped zero-filled rendering of any `p < 100000`: three digits, a
space, two digits, decoding back to `p`. -/
theorem grouped_format05 (p : Nat) (hp : p < 100000) :
    ∃ a b c d e : Char, a.isDigit ∧ b.isDigit ∧ c.isDigit ∧ d.isDigit ∧ e.isDigit ∧
      separate_from_left (format05 p) 3 ' ' = some [a, b, c, ' ', d, e] ∧
      decodeDigits [a, b, c, d, e] = p := by
  obtain ⟨a, b, c, d, e, hl⟩ := exists_five (format05 p) (format05_length p hp)
  refine ⟨a, b, c, d, e,
    format05_digits p a (by rw [hl]; simp),
    format05_digits p b (by rw [hl]; simp),
    format05_digits p c (by rw [hl]; simp),
    format05_digits p d (by rw [hl]; simp),
    format05_digits p e (by rw [hl]; simp),
    ?_, ?_⟩
  · rw [hl]
    exact separate_from_left_five a b c d e
  · have hdec := decodeDigits_format05 p
    rw [hl] at hdec
    exact hdec

/-- Scaling by 100000 and dividing by the period length keeps the quotient
below 100000 whenever the elapsed time is less than the period length. -/
theorem scaled_div_lt (e D : Nat) (hD : 0 < D) (he : e < D) :
    e * 100000 / D < 100000 := by
  rw [Nat.div_lt_iff_lt_mul hD]
  calc e * 100000 < D * 100000 := mul_lt_mul_of_pos_right he (by norm_num)
    _ = 100000 * D := Nat.mul_comm D 100000

/-- Any month length `month_length` returns lies between 28 and 31. -/
theorem month_length_bounds (year : Int) (month ml : Nat)
    (h : month_length year month = some ml) : 28 ≤ ml ∧ ml ≤ 31 := by
  unfold month_length at h
  split_ifs at h with h1 h2 h3 h4
  all_goals simp only [Option.some.injEq] at h
  all_goals omega

/-- `year_length` is 365 or 366. -/
theorem year_length_eq (year : Int) :
    year_length year = 365 ∨ year_length year = 366 := by
  unfold year_length
  split
  · exact Or.inr rfl
  · exact Or.inl rfl

/-- Any proportion output built from a scaled quotient below 100000 has the
required shape, and its value lies in `[0, 1)`. -/
theorem proportionShape_of_lt (p : Nat) (hp : p < 100000) :
    proportionShape ((separate_from_left (format05 p) 3 ' ').map
      (fun g => '0' :: '.' :: g)) := by
  obtain ⟨a, b, c, d, e, h1, h2, h3, h4, h5, hsh, hdec⟩ := grouped_format05 p hp
  refine ⟨a, b, c, d, e, h1, h2, h3, h4, h5, ?_, ?_⟩
  · rw [hsh]
    rfl
  · rw [Set.mem_Ico]
    constructor
    · positivity
    · rw [div_lt_one (by norm_num), hdec]
      exact_mod_cast hp

/-- Claim C3: for a valid timestamp (seconds since local midnight below
86400, weekday offset below 7, a valid calendar date), all four proportion
functions return `"0."` followed by three digits, a space, and two digits,
denoting a rational value in `[0, 1)`. -/
theorem proportion_shapes (s d day0 ordinal0 : Nat) (year : Int) (month ml : Nat)
    (hs : s < 86400) (hd : d < 7) (hml : month_length year month = some ml)
    (hday : day0 < ml) (hord : ordinal0 < year_length year) :
    proportionShape (proportion_day s) ∧ proportionShape (proportion_week s d) ∧
      proportionShape (proportion_month s day0 year month) ∧
      proportionShape (proportion_year s ordinal0 year) := by
  obtain ⟨hml1, hml2⟩ := month_length_bounds year month ml hml
  refine ⟨?_, ?_, ?_, ?_⟩
  · exact proportionShape_of_lt (s * 100000 / 86400) (by omega)
  · have hw : proportion_week s d
        = (separate_from_left (format05 (u32 (s + d * 86400) * 100000 / (7 * 86400))) 3 ' ').map
          (fun g => '0' :: '.' :: g) := rfl
    rw [hw]
    refine proportionShape_of_lt _ ?_
    rw [u32, Nat.mod_eq_of_lt (by omega)]
    exact scaled_div_lt _ _ (by norm_num) (by omega)
  · have hm : proportion_month s day0 year month
        = (separate_from_left (format05 (u32 (s + day0 * 86400) * 100000 / (ml * 86400))) 3 ' ').map
          (fun g => '0' :: '.' :: g) := by
      unfold proportion_month
      rw [hml]
      rfl
    rw [hm]
    refine proportionShape_of_lt _ ?_
    have helap : u32 (s + day0 * 86400) = s + day0 * 86400 := by
      rw [u32]
      exact Nat.mod_eq_of_lt (by omega)
    rw [helap]
    exact scaled_div_lt _ _ (by omega) (by omega)
  · have hy : proportion_year s ordinal0 year
        = (separate_from_left
            (format05 (u32 (s + ordinal0 * 86400) * 100000 / (year_length year * 86400))) 3 ' ').map
          (fun g => '0' :: '.' :: g) := rfl
    rw [hy]
    refine proportionShape_of_lt _ ?_
    rcases year_length_eq year with hyl | hyl <;>
      (rw [hyl] at hord ⊢
       rw [u32, Nat.mod_eq_of_lt (by omega)]
       exact scaled_div_lt _ _ (by norm_num) (by omega))

/-- Witness for C3 at a concrete input. -/
theorem proportion_shapes_witness :
    proportionShape (proportion_day 43200) ∧ proportionShape (proportion_week 43200 3) ∧
      proportionShape (proportion_month 43200 7 1995 2) ∧
      proportionShape (proportion_year 43200 91 1995) :=
  proportion_shapes 43200 3 7 91 1995 2 28 (by norm_num) (by norm_num) (by decide)
    (by norm_num) (by decide)

/-- Claim C4: the five digits `proportion_day` displays are exactly
`floor (s * 100000 / 86400)` (truncating integer division), and the displayed
fraction is at most the true fraction `s / 86400`. -/
theorem proportion_day_truncates (s : Nat) (hs : s < 86400) :
    ∃ a b c d e : Char, proportion_day s = some ['0', '.', a, b, c, ' ', d, e] ∧
      decodeDigits [a, b, c, d, e] = s * 100000 / 86400 ∧
      ((s * 100000 / 86400 : Nat) : ℚ) / 100000 ≤ (s : ℚ) / 86400 := by
  obtain ⟨a, b, c, d, e, _, _, _, _, _, hsh, hdec⟩ :=
    grouped_format05 (s * 100000 / 86400) (by omega)
  refine ⟨a, b, c, d, e, ?_, hdec, ?_⟩
  · have hday : proportion_day s
        = (separate_from_left (format05 (s * 100000 / 86400)) 3 ' ').map
          (fun g => '0' :: '.' :: g) := rfl
    rw [hday, hsh]
    rfl
  · rw [div_le_div_iff₀ (by norm_num) (by norm_num)]
    have h := Nat.div_mul_le_self (s * 100000) 86400
    exact_mod_cast h

/-- Witness for C4 at a concrete input. -/
theorem proportion_day_truncates_witness :
    ∃ a b c d e : Char, proportion_day 43200 = some ['0', '.', a, b, c, ' ', d, e] ∧
      decodeDigits [a, b, c, d, e] = 43200 * 100000 / 86400 ∧
      ((43200 * 100000 / 86400 : Nat) : ℚ) / 100000 ≤ (43200 : ℚ) / 86400 :=
  proportion_day_truncates 43200 (by norm_num)

/-- Claim C5: `proportion_week` displays exactly
`floor ((s + 86400 * d) * 100000 / (7 * 86400))`, where `s` is the seconds
since local midnight and `d` the days since Monday (Monday = 0). -/
theorem proportion_week_formula (s d : Nat) (hs : s < 86400) (hd : d < 7) :
    ∃ a b c d2 e : Char, proportion_week s d = some ['0', '.', a, b, c, ' ', d2, e] ∧
      decodeDigits [a, b, c, d2, e] = (s + 86400 * d) * 100000 / (7 * 86400) := by
  have helap : u32 (s + d * 86400) = s + 86400 * d := by
    rw [u32, Nat.mod_eq_of_lt (by omega), Nat.mul_comm]
  obtain ⟨a, b, c, d2, e, _, _, _, _, _, hsh, hdec⟩ :=
    grouped_format05 ((s + 86400 * d) * 100000 / (7 * 86400)) (by omega)
  refine ⟨a, b, c, d2, e, ?_, hdec⟩
  have hwk : proportion_week s d
      = (separate_from_left (format05 (u32 (s + d * 86400) * 100000 / (7 * 86400))) 3 ' ').map
        (fun g => '0' :: '.' :: g) := rfl
  rw [hwk, helap, hsh]
  rfl

/-- Witness for C5 at a concrete input. -/
theorem proportion_week_formula_witness :
    ∃ a b c d2 e : Char,
      proportion_week 43200 3 = some ['0', '.', a, b, c, ' ', d2, e] ∧
      decodeDigits [a, b, c, d2, e] = (43200 + 86400 * 3) * 100000 / (7 * 86400) :=
  proportion_week_formula 43200 3 (by norm_num) (by norm_num)

end Combodate
